import Mathlib

/-!
# Verification of the MacMahon prime-detector scripts

This file gives a shallow embedding of the two Python scripts
`verify_binomial_detector.py` and `verify_quartic_detector.py` and proves
the specification claims about them.

* `rec3` / `rec4` embed the memoized recursions `rec(remaining, min_part,
  distinct_used)` of `compute_M_up_to_3` / `compute_M_up_to_4`.  A state's
  value is a statistics vector (`Fin 4 → ℤ`, resp. `Fin 5 → ℤ`), matching the
  Python lists `V` of length 4 resp. 5 (Python integers are modelled as `ℤ`).
* `compute_M_up_to_3` / `compute_M_up_to_4` embed the per-`n` dictionaries
  `Ms[n]`; a Python dict is modelled as `ℕ → Option ℤ`.
* `binomial_cubic_detector` and `quartic_L4` embed the two detector
  evaluators; `COEFFS` embeds the coefficient dictionary.
* `verify_range` and `binomial_failures` embed the two verification drivers
  (the primality oracle `sympy.isprime` is modelled as `Nat.Prime`).

The reference definition `Mref k n` — the sum, over all partitions of `n`
with exactly `k` distinct part sizes, of the product of the multiplicities
of the parts — is stated with Mathlib's `Nat.Partition`.
-/

open Finset

/-- Bound `N_MAX = 1000` used by both scripts. -/
def N_MAX : ℕ := 1000

/-- Embedding of the inner recursion `rec` of `compute_M_up_to_4`
(`verify_quartic_detector.py`).  The returned vector `V` has `V k` equal to
the cumulative sum of products of multiplicities over all completions from
this state that end with exactly `k` distinct part sizes in total.

The Python loop `for i in range(min_part, remaining + 1)` with its
unconditional `break` when `distinct_used + 1 > 4` (the break condition does
not depend on `i`, so it empties the whole loop), and the inner loop
`for m in range(1, max_m + 1)` with `max_m = remaining // i`, are embedded as
sums over `Finset.Icc`; the accumulations `V[k] += ...` guarded by
`if child[k]:` and by the `m != 1` fast path are kept literally. -/
def rec4 (remaining min_part distinct_used : ℕ) : Fin 5 → ℤ :=
  if remaining = 0 then
    fun k => if 1 ≤ distinct_used ∧ distinct_used ≤ 4 ∧ k.val = distinct_used then 1 else 0
  else
    fun k =>
      if k.val = 0 then 0
      else if distinct_used + 1 > 4 then 0
      else
        ∑ i ∈ (Finset.Icc min_part remaining).attach,
          ∑ m ∈ (Finset.Icc 1 (remaining / i.1)).attach,
            (fun child : ℤ =>
              if m.1 ≠ 1 then (if child ≠ 0 then (m.1 : ℤ) * child else 0)
              else (if child ≠ 0 then child else 0))
            (rec4 (remaining - m.1 * i.1) (i.1 + 1) (distinct_used + 1) k)
termination_by remaining
decreasing_by
  have hi := i.2
  have hm := m.2
  simp only [Finset.mem_Icc] at hi hm
  have hipos : 1 ≤ i.1 := by
    rcases Nat.eq_zero_or_pos i.1 with h0 | h1
    · exfalso
      have hdiv : remaining / i.1 = 0 := by simp [h0]
      omega
    · exact h1
  have hle : m.1 * i.1 ≤ remaining := by
    have := (Nat.le_div_iff_mul_le hipos).mp hm.2
    exact this
  have hpos : 0 < m.1 * i.1 := Nat.mul_pos (by omega) hipos
  omega

/-- Embedding of the inner recursion `rec` of `compute_M_up_to_3`
(`verify_binomial_detector.py`).  Identical in structure to `rec4` but with
vectors of length 4, cap 3 on the number of distinct parts, and the Python
multiplicity expression `mult = m if m > 1 else 1`. -/
def rec3 (remaining min_part distinct_used : ℕ) : Fin 4 → ℤ :=
  if remaining = 0 then
    fun k => if 1 ≤ distinct_used ∧ distinct_used ≤ 3 ∧ k.val = distinct_used then 1 else 0
  else
    fun k =>
      if k.val = 0 then 0
      else if distinct_used + 1 > 3 then 0
      else
        ∑ i ∈ (Finset.Icc min_part remaining).attach,
          ∑ m ∈ (Finset.Icc 1 (remaining / i.1)).attach,
            (fun child : ℤ =>
              if child ≠ 0 then ((if 1 < m.1 then m.1 else 1 : ℕ) : ℤ) * child else 0)
            (rec3 (remaining - m.1 * i.1) (i.1 + 1) (distinct_used + 1) k)
termination_by remaining
decreasing_by
  have hi := i.2
  have hm := m.2
  simp only [Finset.mem_Icc] at hi hm
  have hipos : 1 ≤ i.1 := by
    rcases Nat.eq_zero_or_pos i.1 with h0 | h1
    · exfalso
      have hdiv : remaining / i.1 = 0 := by simp [h0]
      omega
    · exact h1
  have hle : m.1 * i.1 ≤ remaining := by
    have := (Nat.le_div_iff_mul_le hipos).mp hm.2
    exact this
  have hpos : 0 < m.1 * i.1 := Nat.mul_pos (by omega) hipos
  omega

/-- Embedding of `compute_M_up_to_4(n_max)` at a single `n`: the Python dict
`Ms[n] = {k: V[k] for k in range(1, 5)}` with `V = rec(n, 1, 0)`, as a map
from `k` to an optional value (present exactly for keys `1..4`). -/
def compute_M_up_to_4 (n : ℕ) : ℕ → Option ℤ :=
  fun k => if h : 1 ≤ k ∧ k ≤ 4 then some (rec4 n 1 0 ⟨k, by omega⟩) else none

/-- Embedding of `compute_M_up_to_3(n_max)` at a single `n`: the Python dict
`Ms[n] = {k: V[k] for k in range(1, 4)}` with `V = rec(n, 1, 0)`. -/
def compute_M_up_to_3 (n : ℕ) : ℕ → Option ℤ :=
  fun k => if h : 1 ≤ k ∧ k ≤ 3 then some (rec3 n 1 0 ⟨k, by omega⟩) else none

/-- Embedding of the dictionary `COEFFS` of `verify_quartic_detector.py`. -/
def COEFFS : String → ℤ := fun s =>
  if s = "M1_n3" then -4305
  else if s = "M1_n2" then 12915
  else if s = "M1_n1" then -8610
  else if s = "M2_n3" then -2296
  else if s = "M2_n2" then 18368
  else if s = "M3_n3" then -3200
  else if s = "M3_n2" then 48640
  else if s = "M4_n1" then 967680
  else 0

/-- Embedding of `binomial_cubic_detector(n, Ms_for_n)` from
`verify_binomial_detector.py`.  The dict argument is modelled as
`ℕ → Option ℤ`; `Ms_for_n.get(k, 0)` is `(Ms k).getD 0`. -/
def binomial_cubic_detector (n : ℤ) (Ms_for_n : ℕ → Option ℤ) : ℤ :=
  if n < 3 then 0
  else
    let m1 := (Ms_for_n 1).getD 0
    let m2 := (Ms_for_n 2).getD 0
    let m3 := (Ms_for_n 3).getD 0
    let binom_part := (n - 1) * (n - 2)
    binom_part * (m1 + m2) - 5 * (n - 1) * m2 - 80 * m3

/-- Embedding of `quartic_L4(n, Ms_for_n)` from `verify_quartic_detector.py`. -/
def quartic_L4 (n : ℤ) (Ms_for_n : ℕ → Option ℤ) : ℤ :=
  let m1 := (Ms_for_n 1).getD 0
  let m2 := (Ms_for_n 2).getD 0
  let m3 := (Ms_for_n 3).getD 0
  let m4 := (Ms_for_n 4).getD 0
  let term1 := (COEFFS "M1_n3" * n ^ 3 + COEFFS "M1_n2" * n ^ 2 + COEFFS "M1_n1" * n) * m1
  let term2 := (COEFFS "M2_n3" * n ^ 3 + COEFFS "M2_n2" * n ^ 2) * m2
  let term3 := (COEFFS "M3_n3" * n ^ 3 + COEFFS "M3_n2" * n ^ 2) * m3
  let term4 := (COEFFS "M4_n1" * n) * m4
  term1 + term2 + term3 + term4

/-- Embedding of `verify_range(N_max)` from `verify_quartic_detector.py`:
iterate `n` over `range(2, N_max + 1)`, evaluate the quartic detector on the
precomputed statistics, compare with the primality oracle, and accumulate the
failures `(n, is_prime, val)`.  (The `verbose` printing is I/O only and has
no effect on the returned list.) -/
def verify_range (N_max : ℕ) : List (ℕ × Bool × ℤ) :=
  (List.Ico 2 (N_max + 1)).foldl
    (fun (failures : List (ℕ × Bool × ℤ)) (n : ℕ) =>
      let val := quartic_L4 (n : ℤ) (compute_M_up_to_4 n)
      let is_prime := decide (Nat.Prime n)
      let ok := (is_prime && val == 0) || (!is_prime && !(val == 0))
      if ok then failures else failures ++ [(n, is_prime, val)])
    []

/-- Embedding of the main loop of `verify_binomial_detector.py`
(parameterised by the range bound; the script fixes `N_MAX = 1000`):
iterate `n` over `range(2, N_MAX + 1)`, evaluate the cubic detector, set
`passed` by the two `if` statements, and accumulate failing `n`. -/
def binomial_failures (N_max : ℕ) : List ℕ :=
  (List.Ico 2 (N_max + 1)).foldl
    (fun (failures : List ℕ) (n : ℕ) =>
      let val := binomial_cubic_detector (n : ℤ) (compute_M_up_to_3 n)
      let is_prime := decide (Nat.Prime n)
      let passed := (is_prime && val == 0) || (!is_prime && !(val == 0))
      if passed then failures else failures ++ [n])
    []

/-- Reference definition, from the spec's glossary: `M_k(n)` is the sum, over
all partitions of `n` with exactly `k` distinct part sizes, of the product of
each part's multiplicity.  Partitions are Mathlib's `Nat.Partition`
(multisets of positive integers summing to `n`); the distinct part sizes of
`p` are the elements of `p.parts.toFinset` and the multiplicity of a part
size `i` is `p.parts.count i`. -/
def Mref (k n : ℕ) : ℕ :=
  ∑ p : Nat.Partition n,
    if p.parts.toFinset.card = k then ∏ i ∈ p.parts.toFinset, p.parts.count i else 0

/-! ## Basic unfolding lemmas for the two recursions -/

/-- Base case of `rec4`: `remaining = 0`. -/
theorem rec4_zero (mp d : ℕ) :
    rec4 0 mp d = fun k => if 1 ≤ d ∧ d ≤ 4 ∧ k.val = d then 1 else 0 := by
  rw [rec4]
  simp

/-- Base case of `rec3`: `remaining = 0`. -/
theorem rec3_zero (mp d : ℕ) :
    rec3 0 mp d = fun k => if 1 ≤ d ∧ d ≤ 3 ∧ k.val = d then 1 else 0 := by
  rw [rec3]
  simp

/-- Index `0` of the vector is never touched by the accumulation loops. -/
theorem rec4_k0 (r mp d : ℕ) (hr : r ≠ 0) (k : Fin 5) (hk : k.val = 0) :
    rec4 r mp d k = 0 := by
  rw [rec4]
  simp [hr, hk]

theorem rec3_k0 (r mp d : ℕ) (hr : r ≠ 0) (k : Fin 4) (hk : k.val = 0) :
    rec3 r mp d k = 0 := by
  rw [rec3]
  simp [hr, hk]

/-- Once `distinct_used + 1 > 4` the `break` empties the loop of `rec4`. -/
theorem rec4_cap (r mp d : ℕ) (hr : r ≠ 0) (hd : d + 1 > 4) (k : Fin 5) :
    rec4 r mp d k = 0 := by
  rw [rec4]
  by_cases hk : k.val = 0 <;> simp [hr, hk, hd]

/-- Once `distinct_used + 1 > 3` the `break` empties the loop of `rec3`. -/
theorem rec3_cap (r mp d : ℕ) (hr : r ≠ 0) (hd : d + 1 > 3) (k : Fin 4) :
    rec3 r mp d k = 0 := by
  rw [rec3]
  by_cases hk : k.val = 0 <;> simp [hr, hk, hd]

/-- The guarded accumulation of `rec4` contributes exactly `m * child`. -/
lemma guard4 (m : ℕ) (c : ℤ) :
    (if m ≠ 1 then (if c ≠ 0 then (m : ℤ) * c else 0) else (if c ≠ 0 then c else 0)) =
      (m : ℤ) * c := by
  by_cases hm : m = 1 <;> by_cases hc : c = 0 <;> simp [hm, hc]

/-- The guarded accumulation of `rec3` contributes exactly `m * child` (for `m ≥ 1`). -/
lemma guard3 (m : ℕ) (hm : 1 ≤ m) (c : ℤ) :
    (if c ≠ 0 then ((if 1 < m then m else 1 : ℕ) : ℤ) * c else 0) = (m : ℤ) * c := by
  by_cases hc : c = 0
  · simp [hc]
  · rcases Nat.lt_or_ge 1 m with h1 | h1
    · simp [hc, h1]
    · have : m = 1 := by omega
      simp [hc, this]

/-- Clean recursive step for `rec4` (attach and accumulation guards removed). -/
theorem rec4_succ (r mp d : ℕ) (hr : r ≠ 0) (hd : d + 1 ≤ 4) (k : Fin 5) (hk : k.val ≠ 0) :
    rec4 r mp d k =
      ∑ i ∈ Finset.Icc mp r, ∑ m ∈ Finset.Icc 1 (r / i),
        (m : ℤ) * rec4 (r - m * i) (i + 1) (d + 1) k := by
  rw [rec4]
  simp only [if_neg hr, if_neg hk]
  rw [if_neg (by omega : ¬ d + 1 > 4)]
  rw [Finset.sum_attach (Finset.Icc mp r)
    (fun x => ∑ m ∈ (Finset.Icc 1 (r / x)).attach,
      (fun child : ℤ =>
        if m.1 ≠ 1 then (if child ≠ 0 then (m.1 : ℤ) * child else 0)
        else (if child ≠ 0 then child else 0))
      (rec4 (r - m.1 * x) (x + 1) (d + 1) k))]
  refine Finset.sum_congr rfl fun i _ => ?_
  rw [Finset.sum_attach (Finset.Icc 1 (r / i))
    (fun y => (fun child : ℤ =>
        if y ≠ 1 then (if child ≠ 0 then (y : ℤ) * child else 0)
        else (if child ≠ 0 then child else 0))
      (rec4 (r - y * i) (i + 1) (d + 1) k))]
  refine Finset.sum_congr rfl fun m _ => ?_
  exact guard4 m _

/-- Clean recursive step for `rec3`. -/
theorem rec3_succ (r mp d : ℕ) (hr : r ≠ 0) (hd : d + 1 ≤ 3) (k : Fin 4) (hk : k.val ≠ 0) :
    rec3 r mp d k =
      ∑ i ∈ Finset.Icc mp r, ∑ m ∈ Finset.Icc 1 (r / i),
        (m : ℤ) * rec3 (r - m * i) (i + 1) (d + 1) k := by
  rw [rec3]
  simp only [if_neg hr, if_neg hk]
  rw [if_neg (by omega : ¬ d + 1 > 3)]
  rw [Finset.sum_attach (Finset.Icc mp r)
    (fun x => ∑ m ∈ (Finset.Icc 1 (r / x)).attach,
      (fun child : ℤ =>
        if child ≠ 0 then ((if 1 < m.1 then m.1 else 1 : ℕ) : ℤ) * child else 0)
      (rec3 (r - m.1 * x) (x + 1) (d + 1) k))]
  refine Finset.sum_congr rfl fun i _ => ?_
  rw [Finset.sum_attach (Finset.Icc 1 (r / i))
    (fun y => (fun child : ℤ =>
        if child ≠ 0 then ((if 1 < y then y else 1 : ℕ) : ℤ) * child else 0)
      (rec3 (r - y * i) (i + 1) (d + 1) k))]
  refine Finset.sum_congr rfl fun m hm => ?_
  exact guard3 m (Finset.mem_Icc.mp hm).1 _

/-! ## Fuel-indexed unrollings (termination witnesses) -/

/-- Fuel-indexed unrolling of `rec4`: identical body, but recursion is
structural on the extra `fuel` argument, and exhausted fuel returns the zero
vector.  `rec4F_rec3F_adequate` shows that any fuel exceeding `remaining`
reaches the fixed point, which is the termination argument of the Python
recursion: every recursive call strictly decreases `remaining`. -/
def rec4F : ℕ → ℕ → ℕ → ℕ → Fin 5 → ℤ
  | 0, _, _, _ => fun _ => 0
  | fuel + 1, r, mp, d =>
    if r = 0 then
      fun k => if 1 ≤ d ∧ d ≤ 4 ∧ k.val = d then 1 else 0
    else
      fun k =>
        if k.val = 0 then 0
        else if d + 1 > 4 then 0
        else
          ∑ i ∈ Finset.Icc mp r,
            ∑ m ∈ Finset.Icc 1 (r / i),
              (fun child : ℤ =>
                if m ≠ 1 then (if child ≠ 0 then (m : ℤ) * child else 0)
                else (if child ≠ 0 then child else 0))
              (rec4F fuel (r - m * i) (i + 1) (d + 1) k)

/-- Fuel-indexed unrolling of `rec3`. -/
def rec3F : ℕ → ℕ → ℕ → ℕ → Fin 4 → ℤ
  | 0, _, _, _ => fun _ => 0
  | fuel + 1, r, mp, d =>
    if r = 0 then
      fun k => if 1 ≤ d ∧ d ≤ 3 ∧ k.val = d then 1 else 0
    else
      fun k =>
        if k.val = 0 then 0
        else if d + 1 > 3 then 0
        else
          ∑ i ∈ Finset.Icc mp r,
            ∑ m ∈ Finset.Icc 1 (r / i),
              (fun child : ℤ =>
                if child ≠ 0 then ((if 1 < m then m else 1 : ℕ) : ℤ) * child else 0)
              (rec3F fuel (r - m * i) (i + 1) (d + 1) k)

/-- Inside the loops, the part value `i` is positive and `m * i ≤ r`. -/
lemma loop_bounds {r i m : ℕ} (hm : m ∈ Finset.Icc 1 (r / i)) :
    1 ≤ i ∧ 1 ≤ m ∧ m * i ≤ r := by
  rw [Finset.mem_Icc] at hm
  have hipos : 1 ≤ i := by
    rcases Nat.eq_zero_or_pos i with h0 | h1
    · exfalso
      have hdiv : r / i = 0 := by simp [h0]
      omega
    · exact h1
  exact ⟨hipos, hm.1, (Nat.le_div_iff_mul_le hipos).mp hm.2⟩

/-- Any fuel strictly above `remaining` computes `rec4`. -/
lemma rec4F_eq (fuel : ℕ) : ∀ r mp d : ℕ, r < fuel → rec4F fuel r mp d = rec4 r mp d := by
  induction fuel with
  | zero => intro r mp d h; omega
  | succ fuel ih =>
    intro r mp d h
    by_cases hr : r = 0
    · subst hr
      rw [rec4_zero]
      simp [rec4F]
    · funext k
      by_cases hk : k.val = 0
      · rw [rec4_k0 r mp d hr k hk]
        simp [rec4F, hr, hk]
      · by_cases hd : d + 1 > 4
        · rw [rec4_cap r mp d hr hd k]
          simp [rec4F, hr, hk, hd]
        · rw [rec4_succ r mp d hr (by omega) k hk]
          simp only [rec4F, if_neg hr, if_neg hk, if_neg hd]
          refine Finset.sum_congr rfl fun i _ => ?_
          refine Finset.sum_congr rfl fun m hm => ?_
          obtain ⟨hi1, hm1, hmi⟩ := loop_bounds hm
          have hpos : 0 < m * i := Nat.mul_pos (by omega) (by omega)
          rw [ih (r - m * i) (i + 1) (d + 1) (by omega)]
          exact guard4 m _

/-- Any fuel strictly above `remaining` computes `rec3`. -/
lemma rec3F_eq (fuel : ℕ) : ∀ r mp d : ℕ, r < fuel → rec3F fuel r mp d = rec3 r mp d := by
  induction fuel with
  | zero => intro r mp d h; omega
  | succ fuel ih =>
    intro r mp d h
    by_cases hr : r = 0
    · subst hr
      rw [rec3_zero]
      simp [rec3F]
    · funext k
      by_cases hk : k.val = 0
      · rw [rec3_k0 r mp d hr k hk]
        simp [rec3F, hr, hk]
      · by_cases hd : d + 1 > 3
        · rw [rec3_cap r mp d hr hd k]
          simp [rec3F, hr, hk, hd]
        · rw [rec3_succ r mp d hr (by omega) k hk]
          simp only [rec3F, if_neg hr, if_neg hk, if_neg hd]
          refine Finset.sum_congr rfl fun i _ => ?_
          refine Finset.sum_congr rfl fun m hm => ?_
          obtain ⟨hi1, hm1, hmi⟩ := loop_bounds hm
          have hpos : 0 < m * i := Nat.mul_pos (by omega) (by omega)
          rw [ih (r - m * i) (i + 1) (d + 1) (by omega)]
          exact guard3 m hm1 _

/-! ## A computable enumeration of partitions as multisets

`partMS r mp` is the finite set of multisets of integers `≥ max mp 1`
summing to `r` — i.e. the partitions of `r` into parts `≥ mp`.  It is built
by the canonical decomposition (smallest part value `i`, its multiplicity
`m`, rest of the partition with parts `> i`), which is also the decomposition
underlying the scripts' recursion; it is the scaffold both for proving the
engines correct against `Mref` and for evaluating `Nat.Partition` counts. -/

def partMSF : ℕ → ℕ → ℕ → Finset (Multiset ℕ)
  | 0, _, _ => ∅
  | fuel + 1, r, mp =>
    if r = 0 then {0}
    else
      (Finset.Icc mp r).biUnion fun i =>
        (Finset.Icc 1 (r / i)).biUnion fun m =>
          (partMSF fuel (r - m * i) (i + 1)).image fun M => Multiset.replicate m i + M

/-- The partitions of `r` into parts `≥ mp`, as multisets. -/
def partMS (r mp : ℕ) : Finset (Multiset ℕ) := partMSF (r + 1) r mp

/-! ### Gluing a group `(i, m)` onto a partition with parts `> i` -/

lemma glue_count_self (i m : ℕ) (M' : Multiset ℕ) (h : ∀ j ∈ M', i + 1 ≤ j) :
    (Multiset.replicate m i + M').count i = m := by
  have hnot : i ∉ M' := fun hmem => by have := h i hmem; omega
  rw [Multiset.count_add, Multiset.count_replicate_self,
    Multiset.count_eq_zero_of_not_mem hnot]
  omega

lemma glue_count_other (i m j : ℕ) (M' : Multiset ℕ) (hj : j ≠ i) :
    (Multiset.replicate m i + M').count j = M'.count j := by
  rw [Multiset.count_add, Multiset.count_replicate, if_neg (fun h => hj h.symm), zero_add]

lemma glue_mem_ge (mp i m : ℕ) (M' : Multiset ℕ) (hmp : mp ≤ i)
    (h : ∀ j ∈ M', i + 1 ≤ j) :
    ∀ j ∈ Multiset.replicate m i + M', mp ≤ j := by
  intro j hj
  rcases Multiset.mem_add.mp hj with hj | hj
  · rw [Multiset.eq_of_mem_replicate hj]; exact hmp
  · have := h j hj; omega

lemma glue_sum (i m : ℕ) (M' : Multiset ℕ) :
    (Multiset.replicate m i + M').sum = m * i + M'.sum := by
  rw [Multiset.sum_add, Multiset.sum_replicate, smul_eq_mul]

lemma glue_toFinset (i m : ℕ) (M' : Multiset ℕ) (hm : m ≠ 0) :
    (Multiset.replicate m i + M').toFinset = insert i M'.toFinset := by
  rw [Multiset.toFinset_add, Multiset.toFinset_replicate, if_neg hm, ← Finset.insert_eq]

lemma glue_card (i m : ℕ) (M' : Multiset ℕ) (hm : m ≠ 0) (h : ∀ j ∈ M', i + 1 ≤ j) :
    (Multiset.replicate m i + M').toFinset.card = M'.toFinset.card + 1 := by
  have hnot : i ∉ M'.toFinset := fun hmem => by
    have := h i (Multiset.mem_toFinset.mp hmem); omega
  rw [glue_toFinset i m M' hm, Finset.card_insert_of_not_mem hnot]

lemma glue_prod (i m : ℕ) (M' : Multiset ℕ) (hm : m ≠ 0) (h : ∀ j ∈ M', i + 1 ≤ j) :
    ∏ j ∈ (Multiset.replicate m i + M').toFinset, (Multiset.replicate m i + M').count j =
      m * ∏ j ∈ M'.toFinset, M'.count j := by
  have hnot : i ∉ M'.toFinset := fun hmem => by
    have := h i (Multiset.mem_toFinset.mp hmem); omega
  rw [glue_toFinset i m M' hm, Finset.prod_insert hnot, glue_count_self i m M' h]
  congr 1
  refine Finset.prod_congr rfl fun j hj => ?_
  have hji : j ≠ i := fun hji => hnot (hji ▸ hj)
  exact glue_count_other i m j M' hji

/-! ### Membership characterization -/

lemma mem_partMSF : ∀ fuel r mp, r < fuel → 1 ≤ mp →
    ∀ M : Multiset ℕ, M ∈ partMSF fuel r mp ↔ M.sum = r ∧ ∀ j ∈ M, mp ≤ j := by
  intro fuel
  induction fuel with
  | zero => intro r mp h; omega
  | succ fuel ih =>
    intro r mp hlt hmp M
    by_cases hr : r = 0
    · subst hr
      have hP : partMSF (fuel + 1) 0 mp = {0} := by simp [partMSF]
      rw [hP, Finset.mem_singleton]
      constructor
      · rintro rfl
        exact ⟨Multiset.sum_zero, fun j hj => absurd hj (Multiset.not_mem_zero j)⟩
      · rintro ⟨hsum, hge⟩
        by_contra hne
        obtain ⟨a, ha⟩ := Multiset.exists_mem_of_ne_zero hne
        obtain ⟨t, ht⟩ := Multiset.exists_cons_of_mem ha
        have hga := hge a ha
        rw [ht, Multiset.sum_cons] at hsum
        omega
    · simp only [partMSF, if_neg hr, Finset.mem_biUnion, Finset.mem_image]
      constructor
      · rintro ⟨i, hi, m, hm, M', hM', rfl⟩
        obtain ⟨hi1, hm1, hmi⟩ := loop_bounds hm
        rw [Finset.mem_Icc] at hi
        have hpos : 0 < m * i := Nat.mul_pos (by omega) (by omega)
        have hM'c := (ih (r - m * i) (i + 1) (by omega) (by omega) M').mp hM'
        constructor
        · rw [glue_sum]; omega
        · exact glue_mem_ge mp i m M' hi.1 (fun j hj => hM'c.2 j hj)
      · rintro ⟨hsum, hge⟩
        have hne : M ≠ 0 := by
          intro h0
          rw [h0, Multiset.sum_zero] at hsum
          exact hr hsum.symm
        have hfin : M.toFinset.Nonempty := Multiset.toFinset_nonempty.mpr hne
        set i0 := M.toFinset.min' hfin with hi0def
        have hi0mem : i0 ∈ M := Multiset.mem_toFinset.mp (M.toFinset.min'_mem hfin)
        have hi0min : ∀ j ∈ M, i0 ≤ j := fun j hj =>
          Finset.min'_le _ j (Multiset.mem_toFinset.mpr hj)
        set m0 := M.count i0 with hm0def
        have hm0pos : 0 < m0 := Multiset.count_pos.mpr hi0mem
        have hrep : Multiset.replicate m0 i0 ≤ M :=
          Multiset.le_count_iff_replicate_le.mp le_rfl
        set M' := M - Multiset.replicate m0 i0 with hMsub
        have hMeq : M = Multiset.replicate m0 i0 + M' := (add_tsub_cancel_of_le hrep).symm
        have hM'ge : ∀ j ∈ M', i0 + 1 ≤ j := by
          intro j hj
          have hjM : j ∈ M := Multiset.mem_of_le tsub_le_self hj
          have hji0 : j ≠ i0 := by
            intro he
            have hc0 : M'.count i0 = 0 := by
              rw [hMsub, Multiset.count_sub, Multiset.count_replicate_self]
              omega
            rw [he] at hj
            have := Multiset.count_pos.mpr hj
            omega
          have := hi0min j hjM
          omega
        have hsum' : m0 * i0 + M'.sum = r := by
          rw [← glue_sum i0 m0 M', ← hMeq, hsum]
        have hi0r : i0 ≤ r := by
          obtain ⟨t, ht⟩ := Multiset.exists_cons_of_mem hi0mem
          rw [ht, Multiset.sum_cons] at hsum
          omega
        have hi0pos : 1 ≤ i0 := le_trans hmp (hge i0 hi0mem)
        have hpos : 0 < m0 * i0 := Nat.mul_pos hm0pos hi0pos
        have hdiv : m0 ≤ r / i0 := (Nat.le_div_iff_mul_le hi0pos).mpr (by omega)
        refine ⟨i0, Finset.mem_Icc.mpr ⟨hge i0 hi0mem, hi0r⟩, m0,
          Finset.mem_Icc.mpr ⟨by omega, hdiv⟩, M', ?_, hMeq.symm⟩
        exact (ih (r - m0 * i0) (i0 + 1) (by omega) (by omega) M').mpr ⟨by omega, hM'ge⟩

lemma mem_partMS (r mp : ℕ) (hmp : 1 ≤ mp) (M : Multiset ℕ) :
    M ∈ partMS r mp ↔ M.sum = r ∧ ∀ j ∈ M, mp ≤ j :=
  mem_partMSF (r + 1) r mp (Nat.lt_succ_self r) hmp M

/-! ### Splitting a sum over partitions along the smallest part group -/

/-- A multiset in the `(i, m)` image has `count i = m` and all parts `≥ i`. -/
lemma glue_facts_of_mem_image {r i m : ℕ} (hm : m ∈ Finset.Icc 1 (r / i))
    {M : Multiset ℕ}
    (hM : M ∈ (partMS (r - m * i) (i + 1)).image fun M' => Multiset.replicate m i + M') :
    M.count i = m ∧ ∀ j ∈ M, i ≤ j := by
  obtain ⟨hi1, hm1, hmi⟩ := loop_bounds hm
  obtain ⟨M', hM', rfl⟩ := Finset.mem_image.mp hM
  have hge := ((mem_partMS _ _ (by omega) M').mp hM').2
  exact ⟨glue_count_self i m M' hge, glue_mem_ge i i m M' le_rfl hge⟩

/-- One-step decomposition of a sum over `partMS r mp` (for `r ≠ 0`) along
the smallest part value `i` and its multiplicity `m`. -/
lemma sum_partMS_split (r mp : ℕ) (hr : r ≠ 0) (f : Multiset ℕ → ℤ) :
    ∑ M ∈ partMS r mp, f M =
      ∑ i ∈ Finset.Icc mp r, ∑ m ∈ Finset.Icc 1 (r / i),
        ∑ M' ∈ partMS (r - m * i) (i + 1), f (Multiset.replicate m i + M') := by
  have hunf : partMS r mp =
      (Finset.Icc mp r).biUnion fun i => (Finset.Icc 1 (r / i)).biUnion fun m =>
        (partMS (r - m * i) (i + 1)).image fun M => Multiset.replicate m i + M := by
    rw [partMS]
    simp only [partMSF, if_neg hr]
    refine Finset.biUnion_congr rfl fun i _ => ?_
    refine Finset.biUnion_congr rfl fun m hm => ?_
    obtain ⟨hi1, hm1, hmi⟩ := loop_bounds hm
    have hpos : 0 < m * i := Nat.mul_pos (by omega) (by omega)
    congr 1
    apply Finset.ext
    intro M
    rw [mem_partMSF r (r - m * i) (i + 1) (by omega) (by omega) M,
      mem_partMS (r - m * i) (i + 1) (by omega) M]
  have houter : Set.PairwiseDisjoint ↑(Finset.Icc mp r)
      (fun i => (Finset.Icc 1 (r / i)).biUnion fun m =>
        (partMS (r - m * i) (i + 1)).image fun M => Multiset.replicate m i + M) := by
    intro i1 h1 i2 h2 hne
    refine Finset.disjoint_left.mpr fun {M} hM1 hM2 => ?_
    obtain ⟨m1, hm1, hMi1⟩ := Finset.mem_biUnion.mp hM1
    obtain ⟨m2, hm2, hMi2⟩ := Finset.mem_biUnion.mp hM2
    obtain ⟨hc1, hge1⟩ := glue_facts_of_mem_image hm1 hMi1
    obtain ⟨hc2, hge2⟩ := glue_facts_of_mem_image hm2 hMi2
    have hmem1 : i1 ∈ M := Multiset.count_pos.mp (by
      rw [hc1]; exact (Finset.mem_Icc.mp hm1).1)
    have hmem2 : i2 ∈ M := Multiset.count_pos.mp (by
      rw [hc2]; exact (Finset.mem_Icc.mp hm2).1)
    exact hne (Nat.le_antisymm (hge2 i1 hmem1) (hge1 i2 hmem2)).symm
  have hinner : ∀ i ∈ Finset.Icc mp r, Set.PairwiseDisjoint ↑(Finset.Icc 1 (r / i))
      (fun m => (partMS (r - m * i) (i + 1)).image fun M => Multiset.replicate m i + M) := by
    intro i _ m1 h1 m2 h2 hne
    refine Finset.disjoint_left.mpr fun {M} hM1 hM2 => ?_
    obtain ⟨hc1, _⟩ := glue_facts_of_mem_image h1 hM1
    obtain ⟨hc2, _⟩ := glue_facts_of_mem_image h2 hM2
    exact hne (hc1 ▸ hc2.symm ▸ rfl)
  rw [hunf, Finset.sum_biUnion houter]
  refine Finset.sum_congr rfl fun i hi => ?_
  rw [Finset.sum_biUnion (hinner i hi)]
  refine Finset.sum_congr rfl fun m _ => ?_
  rw [Finset.sum_image fun x _ y _ h => add_left_cancel h]

/-! ### Bridge between `Nat.Partition` and `partMS` -/

/-- Sums over all `Nat.Partition n` are sums over `partMS n 1`. -/
lemma sum_partition_eq_partMS (n : ℕ) (g : Multiset ℕ → ℤ) :
    ∑ p : Nat.Partition n, g p.parts = ∑ M ∈ partMS n 1, g M := by
  refine Finset.sum_bij (fun p _ => p.parts) ?_ ?_ ?_ ?_
  · intro p _
    exact (mem_partMS n 1 le_rfl p.parts).mpr ⟨p.parts_sum, fun j hj => p.parts_pos hj⟩
  · intro p1 _ p2 _ h
    exact Nat.Partition.ext h
  · intro M hM
    obtain ⟨hsum, hge⟩ := (mem_partMS n 1 le_rfl M).mp hM
    exact ⟨⟨M, fun {j} hj => hge j hj, hsum⟩, Finset.mem_univ _, rfl⟩
  · intro p _
    rfl

/-- The number of partitions of `n`, through the computable enumeration. -/
lemma card_partition_eq_partMS (n : ℕ) :
    Fintype.card (Nat.Partition n) = (partMS n 1).card := by
  refine Finset.card_bij (fun p _ => p.parts) ?_ ?_ ?_
  · intro p _
    exact (mem_partMS n 1 le_rfl p.parts).mpr ⟨p.parts_sum, fun j hj => p.parts_pos hj⟩
  · intro p1 _ p2 _ h
    exact Nat.Partition.ext h
  · intro M hM
    obtain ⟨hsum, hge⟩ := (mem_partMS n 1 le_rfl M).mp hM
    exact ⟨⟨M, fun {j} hj => hge j hj, hsum⟩, Finset.mem_univ _, rfl⟩

/-- `Mref` written as a sum over the computable enumeration. -/
lemma Mref_eq_partMS (k n : ℕ) :
    (Mref k n : ℤ) = ∑ M ∈ partMS n 1,
      if M.toFinset.card = k then ((∏ j ∈ M.toFinset, M.count j : ℕ) : ℤ) else 0 := by
  rw [Mref, Nat.cast_sum,
    ← sum_partition_eq_partMS n
      (fun M => if M.toFinset.card = k then ((∏ j ∈ M.toFinset, M.count j : ℕ) : ℤ) else 0)]
  refine Finset.sum_congr rfl fun p _ => ?_
  split_ifs with h
  · rfl
  · rfl

/-! ## Correctness of the engine recursions -/

/-- Central invariant: at index `k` (`1 ≤ k ≤ 4`), `rec4 remaining min_part
distinct_used` is the sum, over partitions `M` of `remaining` into parts
`≥ min_part` whose distinct-part-size count added to `distinct_used` equals
`k`, of the product of the multiplicities of `M`. -/
lemma rec4_eq_partMS :
    ∀ r mp d : ℕ, ∀ k : Fin 5, 1 ≤ mp → d ≤ 4 → 1 ≤ k.val → k.val ≤ 4 →
      rec4 r mp d k =
        ∑ M ∈ partMS r mp,
          if d + M.toFinset.card = k.val
          then ((∏ j ∈ M.toFinset, M.count j : ℕ) : ℤ) else 0 := by
  intro r
  induction r using Nat.strong_induction_on with
  | _ r ih =>
    intro mp d k hmp hd hk1 hk4
    by_cases hr : r = 0
    · subst hr
      have hP : partMS 0 mp = {0} := by simp [partMS, partMSF]
      rw [hP, Finset.sum_singleton]
      simp only [rec4_zero, Multiset.toFinset_zero, Finset.card_empty, Finset.prod_empty,
        Nat.add_zero, Nat.cast_one]
      by_cases hdk : k.val = d
      · rw [if_pos ⟨by omega, hd, hdk⟩, if_pos (by omega)]
      · rw [if_neg (fun h => hdk h.2.2), if_neg (by omega)]
    · by_cases hcap : d + 1 > 4
      · rw [rec4_cap r mp d hr hcap k]
        symm
        refine Finset.sum_eq_zero fun M hM => ?_
        obtain ⟨hsum, hge⟩ := (mem_partMS r mp hmp M).mp hM
        have hMne : M ≠ 0 := by
          intro h0
          rw [h0, Multiset.sum_zero] at hsum
          exact hr hsum.symm
        have hcard : 1 ≤ M.toFinset.card :=
          Finset.card_pos.mpr (Multiset.toFinset_nonempty.mpr hMne)
        rw [if_neg (by omega)]
      · rw [rec4_succ r mp d hr (by omega) k (show k.val ≠ 0 by omega),
          sum_partMS_split r mp hr
            (fun M => if d + M.toFinset.card = k.val
              then ((∏ j ∈ M.toFinset, M.count j : ℕ) : ℤ) else 0)]
        refine Finset.sum_congr rfl fun i hi => ?_
        refine Finset.sum_congr rfl fun m hm => ?_
        obtain ⟨hi1, hm1, hmi⟩ := loop_bounds hm
        rw [Finset.mem_Icc] at hi
        have hpos : 0 < m * i := Nat.mul_pos (by omega) (by omega)
        rw [ih (r - m * i) (by omega) (i + 1) (d + 1) k (by omega) (by omega) hk1 hk4,
          Finset.mul_sum]
        refine Finset.sum_congr rfl fun M' hM' => ?_
        have hge := ((mem_partMS (r - m * i) (i + 1) (by omega) M').mp hM').2
        have hcard := glue_card i m M' (by omega) hge
        have hprod := glue_prod i m M' (by omega) hge
        rw [mul_ite, mul_zero, hprod, Nat.cast_mul]
        exact if_congr (by omega) rfl rfl

/-- For `k ≤ 3` the index-4 level returns nothing at `distinct_used = 4`. -/
lemma rec4_d4 (r mp : ℕ) (k : Fin 5) (hk1 : 1 ≤ k.val) (hk3 : k.val ≤ 3) :
    rec4 r mp 4 k = 0 := by
  by_cases hr : r = 0
  · subst hr
    simp only [rec4_zero]
    rw [if_neg (fun h => by omega)]
  · exact rec4_cap r mp 4 hr (by omega) k

/-- The cubic engine and the quartic engine agree on indices `1..3`. -/
lemma rec3_eq_rec4 :
    ∀ r mp d : ℕ, d ≤ 3 → ∀ k : Fin 4, 1 ≤ k.val →
      rec3 r mp d k = rec4 r mp d ⟨k.val, by omega⟩ := by
  intro r
  induction r using Nat.strong_induction_on with
  | _ r ih =>
    intro mp d hd k hk1
    have hk3 : k.val ≤ 3 := by omega
    by_cases hr : r = 0
    · subst hr
      simp only [rec3_zero, rec4_zero]
      by_cases hdk : k.val = d
      · rw [if_pos ⟨by omega, by omega, hdk⟩, if_pos ⟨by omega, by omega, hdk⟩]
      · rw [if_neg (fun h => hdk h.2.2), if_neg (fun h => hdk h.2.2)]
    · by_cases hcap : d + 1 > 3
      · have hd3 : d = 3 := by omega
        subst hd3
        rw [rec3_cap r mp 3 hr (by omega) k,
          rec4_succ r mp 3 hr (by omega) ⟨k.val, by omega⟩ (show k.val ≠ 0 by omega)]
        symm
        refine Finset.sum_eq_zero fun i _ => ?_
        refine Finset.sum_eq_zero fun m _ => ?_
        rw [rec4_d4 _ _ _ hk1 hk3, mul_zero]
      · rw [rec3_succ r mp d hr (by omega) k (show k.val ≠ 0 by omega),
          rec4_succ r mp d hr (by omega) ⟨k.val, by omega⟩ (show k.val ≠ 0 by omega)]
        refine Finset.sum_congr rfl fun i _ => ?_
        refine Finset.sum_congr rfl fun m hm => ?_
        obtain ⟨hi1, hm1, hmi⟩ := loop_bounds hm
        have hpos : 0 < m * i := Nat.mul_pos (by omega) (by omega)
        rw [ih (r - m * i) (by omega) (i + 1) (d + 1) (by omega) k hk1]

/-- Correctness of the cubic engine at indices `1..3`. -/
lemma rec3_eq_partMS (r mp d : ℕ) (k : Fin 4) (hmp : 1 ≤ mp) (hd : d ≤ 3) (hk1 : 1 ≤ k.val) :
    rec3 r mp d k =
      ∑ M ∈ partMS r mp,
        if d + M.toFinset.card = k.val
        then ((∏ j ∈ M.toFinset, M.count j : ℕ) : ℤ) else 0 := by
  rw [rec3_eq_rec4 r mp d hd k hk1,
    rec4_eq_partMS r mp d ⟨k.val, by omega⟩ hmp (by omega) hk1 (by omega)]

/-! ## Consequences at the level of the `Ms` tables -/

/-- The quartic engine's table entry is exactly the reference statistic. -/
lemma compute_M4_eq_Mref (n k : ℕ) (hk1 : 1 ≤ k) (hk4 : k ≤ 4) :
    compute_M_up_to_4 n k = some ((Mref k n : ℕ) : ℤ) := by
  rw [compute_M_up_to_4, dif_pos ⟨hk1, hk4⟩]
  congr 1
  rw [rec4_eq_partMS n 1 0 ⟨k, by omega⟩ le_rfl (by omega) hk1 hk4, Mref_eq_partMS]
  refine Finset.sum_congr rfl fun M _ => ?_
  exact if_congr (show 0 + M.toFinset.card = k ↔ M.toFinset.card = k by omega) rfl rfl

/-- The cubic engine's table entry is exactly the reference statistic. -/
lemma compute_M3_eq_Mref (n k : ℕ) (hk1 : 1 ≤ k) (hk3 : k ≤ 3) :
    compute_M_up_to_3 n k = some ((Mref k n : ℕ) : ℤ) := by
  rw [compute_M_up_to_3, dif_pos ⟨hk1, hk3⟩]
  congr 1
  rw [rec3_eq_partMS n 1 0 ⟨k, by omega⟩ le_rfl (by omega) hk1, Mref_eq_partMS]
  refine Finset.sum_congr rfl fun M _ => ?_
  exact if_congr (show 0 + M.toFinset.card = k ↔ M.toFinset.card = k by omega) rfl rfl

/-- Every component of every `rec4` statistics vector is non-negative. -/
lemma rec4_nonneg : ∀ r mp d : ℕ, ∀ k : Fin 5, 0 ≤ rec4 r mp d k := by
  intro r
  induction r using Nat.strong_induction_on with
  | _ r ih =>
    intro mp d k
    by_cases hr : r = 0
    · subst hr
      simp only [rec4_zero]
      split
      · norm_num
      · norm_num
    · by_cases hk : k.val = 0
      · rw [rec4_k0 r mp d hr k hk]
      · by_cases hcap : d + 1 > 4
        · rw [rec4_cap r mp d hr hcap k]
        · rw [rec4_succ r mp d hr (by omega) k hk]
          refine Finset.sum_nonneg fun i _ => ?_
          refine Finset.sum_nonneg fun m hm => ?_
          obtain ⟨hi1, hm1, hmi⟩ := loop_bounds hm
          have hpos : 0 < m * i := Nat.mul_pos (by omega) (by omega)
          exact mul_nonneg (Int.natCast_nonneg m) (ih (r - m * i) (by omega) (i + 1) (d + 1) k)

/-- Every component of every `rec3` statistics vector is non-negative. -/
lemma rec3_nonneg : ∀ r mp d : ℕ, ∀ k : Fin 4, 0 ≤ rec3 r mp d k := by
  intro r
  induction r using Nat.strong_induction_on with
  | _ r ih =>
    intro mp d k
    by_cases hr : r = 0
    · subst hr
      simp only [rec3_zero]
      split
      · norm_num
      · norm_num
    · by_cases hk : k.val = 0
      · rw [rec3_k0 r mp d hr k hk]
      · by_cases hcap : d + 1 > 3
        · rw [rec3_cap r mp d hr hcap k]
        · rw [rec3_succ r mp d hr (by omega) k hk]
          refine Finset.sum_nonneg fun i _ => ?_
          refine Finset.sum_nonneg fun m hm => ?_
          obtain ⟨hi1, hm1, hmi⟩ := loop_bounds hm
          have hpos : 0 < m * i := Nat.mul_pos (by omega) (by omega)
          exact mul_nonneg (Int.natCast_nonneg m) (ih (r - m * i) (by omega) (i + 1) (d + 1) k)

/-! ## The maximal number of distinct part sizes -/

/-- The maximum number of distinct part sizes possible in a partition of `n`
(this is `0` for `n = 0`, whose only partition is empty). -/
def maxDistinct (n : ℕ) : ℕ :=
  (Finset.univ.image fun p : Nat.Partition n => p.parts.toFinset.card).max'
    (Finset.Nonempty.image ⟨Nat.Partition.indiscrete n, Finset.mem_univ _⟩ _)

lemma card_le_maxDistinct (n : ℕ) (p : Nat.Partition n) :
    p.parts.toFinset.card ≤ maxDistinct n := by
  rw [maxDistinct]
  exact Finset.le_max' (Finset.univ.image fun q : Nat.Partition n => q.parts.toFinset.card)
    p.parts.toFinset.card (Finset.mem_image_of_mem _ (Finset.mem_univ p))

lemma parts_of_partition_zero (p : Nat.Partition 0) : p.parts = 0 := by
  by_contra hne
  obtain ⟨a, ha⟩ := Multiset.exists_mem_of_ne_zero hne
  obtain ⟨t, ht⟩ := Multiset.exists_cons_of_mem ha
  have hpos := p.parts_pos ha
  have hsum := p.parts_sum
  rw [ht, Multiset.sum_cons] at hsum
  omega

lemma maxDistinct_zero : maxDistinct 0 = 0 := by
  refine Nat.le_antisymm ?_ (Nat.zero_le _)
  rw [maxDistinct]
  refine Finset.max'_le _ _ _ fun y hy => ?_
  obtain ⟨p, _, rfl⟩ := Finset.mem_image.mp hy
  rw [parts_of_partition_zero p]
  simp

/-- Concrete evaluation of the reference statistic (used by the spec:
`M_1(4) = 7`). -/
lemma Mref_one_four : Mref 1 4 = 7 := by
  have h := Mref_eq_partMS 1 4
  have h2 : (∑ M ∈ partMS 4 1,
      if M.toFinset.card = 1 then ((∏ j ∈ M.toFinset, M.count j : ℕ) : ℤ) else 0) = 7 := by
    decide
  rw [h2] at h
  exact_mod_cast h

/-! ## Driver bookkeeping -/

/-- The per-`n` pass condition computed by the quartic driver
(`ok = (is_prime and val == 0) or (not is_prime and val != 0)`). -/
def quartic_ok (n : ℕ) : Bool :=
  (decide (Nat.Prime n) && (quartic_L4 (n : ℤ) (compute_M_up_to_4 n) == 0)) ||
  (!decide (Nat.Prime n) && !(quartic_L4 (n : ℤ) (compute_M_up_to_4 n) == 0))

/-- The per-`n` pass condition computed by the cubic driver. -/
def cubic_ok (n : ℕ) : Bool :=
  (decide (Nat.Prime n) && (binomial_cubic_detector (n : ℤ) (compute_M_up_to_3 n) == 0)) ||
  (!decide (Nat.Prime n) && !(binomial_cubic_detector (n : ℤ) (compute_M_up_to_3 n) == 0))

/-- Folding "append on failure" over a list accumulates exactly the
failures, in list order. -/
lemma foldl_accumulate {α β : Type} (p : α → Bool) (f : α → β) :
    ∀ (l : List α) (init : List β),
      l.foldl (fun acc n => if p n then acc else acc ++ [f n]) init =
        init ++ (l.filter fun n => !p n).map f := by
  intro l
  induction l with
  | nil => intro init; simp
  | cons a l ih =>
    intro init
    by_cases hp : p a = true
    · rw [List.foldl_cons, if_pos hp, List.filter_cons_of_neg (by simp [hp]), ih]
    · have hpa : p a = false := by revert hp; cases p a <;> simp
      rw [List.foldl_cons, if_neg hp, List.filter_cons_of_pos (by simp [hpa]), List.map_cons, ih]
      simp

/-- The quartic driver returns exactly the non-passing `n`, decorated. -/
lemma verify_range_eq (N : ℕ) :
    verify_range N =
      ((List.Ico 2 (N + 1)).filter fun n => !quartic_ok n).map
        (fun n => (n, decide (Nat.Prime n), quartic_L4 (n : ℤ) (compute_M_up_to_4 n))) := by
  have hbody : (fun (failures : List (ℕ × Bool × ℤ)) (n : ℕ) =>
      let val := quartic_L4 (n : ℤ) (compute_M_up_to_4 n)
      let is_prime := decide (Nat.Prime n)
      let ok := (is_prime && val == 0) || (!is_prime && !(val == 0))
      if ok then failures else failures ++ [(n, is_prime, val)]) =
      (fun acc n => if quartic_ok n then acc
        else acc ++ [(n, decide (Nat.Prime n), quartic_L4 (n : ℤ) (compute_M_up_to_4 n))]) := rfl
  rw [verify_range, hbody, foldl_accumulate, List.nil_append]

/-- The cubic driver accumulates exactly the non-passing `n`. -/
lemma binomial_failures_eq (N : ℕ) :
    binomial_failures N = (List.Ico 2 (N + 1)).filter fun n => !cubic_ok n := by
  have hbody : (fun (failures : List ℕ) (n : ℕ) =>
      let val := binomial_cubic_detector (n : ℤ) (compute_M_up_to_3 n)
      let is_prime := decide (Nat.Prime n)
      let passed := (is_prime && val == 0) || (!is_prime && !(val == 0))
      if passed then failures else failures ++ [n]) =
      (fun acc n => if cubic_ok n then acc else acc ++ [(fun n : ℕ => n) n]) := rfl
  rw [binomial_failures, hbody, foldl_accumulate, List.nil_append, List.map_id']

/-- The code's quartic pass bit agrees with the spec's pass condition. -/
lemma quartic_ok_iff (n : ℕ) :
    quartic_ok n = true ↔
      (Nat.Prime n ∧ quartic_L4 (n : ℤ) (compute_M_up_to_4 n) = 0) ∨
      (¬ Nat.Prime n ∧ quartic_L4 (n : ℤ) (compute_M_up_to_4 n) ≠ 0) := by
  by_cases hp : Nat.Prime n <;>
    by_cases hv : quartic_L4 (n : ℤ) (compute_M_up_to_4 n) = 0 <;>
      simp [quartic_ok, hp, hv]

/-- The code's cubic pass bit agrees with the spec's pass condition. -/
lemma cubic_ok_iff (n : ℕ) :
    cubic_ok n = true ↔
      (Nat.Prime n ∧ binomial_cubic_detector (n : ℤ) (compute_M_up_to_3 n) = 0) ∨
      (¬ Nat.Prime n ∧ binomial_cubic_detector (n : ℤ) (compute_M_up_to_3 n) ≠ 0) := by
  by_cases hp : Nat.Prime n <;>
    by_cases hv : binomial_cubic_detector (n : ℤ) (compute_M_up_to_3 n) = 0 <;>
      simp [cubic_ok, hp, hv]

/-- The failing `n` of the quartic driver, in order. -/
lemma verify_range_firsts (N : ℕ) :
    (verify_range N).map (fun t => t.1) =
      (List.Ico 2 (N + 1)).filter fun n => !quartic_ok n := by
  rw [verify_range_eq, List.map_map]
  exact List.map_id' _

/-- Casting the reference statistic into `ℤ` as a partition sum. -/
lemma Mref_cast (k n : ℕ) :
    (Mref k n : ℤ) = ∑ p : Nat.Partition n,
      if p.parts.toFinset.card = k
      then ((∏ i ∈ p.parts.toFinset, p.parts.count i : ℕ) : ℤ) else 0 := by
  rw [Mref, Nat.cast_sum]
  refine Finset.sum_congr rfl fun p _ => ?_
  split_ifs <;> simp

/-! ## The claims -/

/-- C1: for every `n ∈ [0, N_MAX]` and `k ∈ [1, K]`, the value `M_k(n)`
produced by the Partition-Statistics Engine (`rec(n, 1, 0)` projected at
index `k`, i.e. the dict entry `compute_M_up_to_K n k`) equals the reference
definition `Mref k n` — the sum, over all partitions of `n` with exactly `k`
distinct part sizes, of the product of the multiplicities; this holds for
the quartic engine (`K = 4`) and, when `k ≤ 3`, for the cubic engine
(`K = 3`); in particular `M_1(4) = 7`. -/
theorem C1_engine_matches_reference (n k : ℕ) (hn : n ≤ N_MAX) (hk1 : 1 ≤ k) (hk4 : k ≤ 4) :
    compute_M_up_to_4 n k = some ((Mref k n : ℕ) : ℤ) ∧
    (k ≤ 3 → compute_M_up_to_3 n k = some ((Mref k n : ℕ) : ℤ)) ∧
    Mref 1 4 = 7 :=
  ⟨compute_M4_eq_Mref n k hk1 hk4, fun hk3 => compute_M3_eq_Mref n k hk1 hk3, Mref_one_four⟩

/-- Witness for C1 at `n = 4`, `k = 1`: the engine value is `some 7`. -/
theorem C1_engine_matches_reference_witness :
    4 ≤ N_MAX ∧ 1 ≤ 1 ∧ 1 ≤ 4 ∧
    (compute_M_up_to_4 4 1 = some ((Mref 1 4 : ℕ) : ℤ) ∧
      (1 ≤ 3 → compute_M_up_to_3 4 1 = some ((Mref 1 4 : ℕ) : ℤ)) ∧
      Mref 1 4 = 7) ∧
    compute_M_up_to_4 4 1 = some 7 := by
  have h := C1_engine_matches_reference 4 1 (by norm_num [N_MAX]) le_rfl (by norm_num)
  refine ⟨by norm_num [N_MAX], le_rfl, by norm_num, h, ?_⟩
  rw [h.1, h.2.2]
  norm_num

/-- A statistics dictionary used for concrete counterexamples/witnesses:
`{1 ↦ 0, 2 ↦ 1, 3 ↦ 1}`, key `4` absent. -/
def C2dict : ℕ → Option ℤ := fun k =>
  if k = 1 then some 0 else if k = 2 then some 1 else if k = 3 then some 1 else none

/-- C2 counterexample: at `n = 2` (which satisfies `n ≥ 2`) with supplied
statistics `M1 = 0`, `M2 = 1`, `M3 = 1`, the code returns `0` (the `n < 3`
early return), while the claimed formula
`(n-1)(n-2)(M1+M2) - 5(n-1) M2 - 80 M3` evaluates to `-85 ≠ 0`. -/
theorem C2_counterexample :
    binomial_cubic_detector 2 C2dict = 0 ∧
    ((2 : ℤ) - 1) * ((2 : ℤ) - 2) * ((C2dict 1).getD 0 + (C2dict 2).getD 0) -
        5 * ((2 : ℤ) - 1) * (C2dict 2).getD 0 - 80 * (C2dict 3).getD 0 = -85 ∧
    binomial_cubic_detector 2 C2dict ≠
      ((2 : ℤ) - 1) * ((2 : ℤ) - 2) * ((C2dict 1).getD 0 + (C2dict 2).getD 0) -
        5 * ((2 : ℤ) - 1) * (C2dict 2).getD 0 - 80 * (C2dict 3).getD 0 := by
  refine ⟨by decide, by decide, by decide⟩

/-- C2 (amended): for every integer `n ≥ 3` (rather than `n ≥ 2`) and all
supplied statistics, `binomial_cubic_detector` returns exactly
`(n-1)(n-2)(M1+M2) - 5(n-1) M2 - 80 M3`; for `n < 3` it returns `0`. -/
theorem C2_amended_cubic_formula (n : ℤ) (Ms_for_n : ℕ → Option ℤ) (hn : 3 ≤ n) :
    binomial_cubic_detector n Ms_for_n =
      (n - 1) * (n - 2) * ((Ms_for_n 1).getD 0 + (Ms_for_n 2).getD 0) -
        5 * (n - 1) * (Ms_for_n 2).getD 0 - 80 * (Ms_for_n 3).getD 0 := by
  rw [binomial_cubic_detector, if_neg (by omega)]

/-- Witness for the amended C2 at `n = 3`. -/
theorem C2_amended_cubic_formula_witness :
    (3 : ℤ) ≤ 3 ∧
    binomial_cubic_detector 3 C2dict =
      ((3 : ℤ) - 1) * ((3 : ℤ) - 2) * ((C2dict 1).getD 0 + (C2dict 2).getD 0) -
        5 * ((3 : ℤ) - 1) * (C2dict 2).getD 0 - 80 * (C2dict 3).getD 0 :=
  ⟨le_rfl, C2_amended_cubic_formula 3 C2dict le_rfl⟩

/-- C3: for every integer `n ≥ 0` and every statistics mapping, `quartic_L4`
returns exactly
`(-4305n³+12915n²-8610n)·M1 + (-2296n³+18368n²)·M2 + (-3200n³+48640n²)·M3
+ 967680n·M4`, where `M_k` is read from the mapping with absent keys
treated as `0` (`Option.getD _ 0`). -/
theorem C3_quartic_formula (n : ℤ) (Ms_for_n : ℕ → Option ℤ) (hn : 0 ≤ n) :
    quartic_L4 n Ms_for_n =
      (-4305 * n ^ 3 + 12915 * n ^ 2 - 8610 * n) * (Ms_for_n 1).getD 0 +
      (-2296 * n ^ 3 + 18368 * n ^ 2) * (Ms_for_n 2).getD 0 +
      (-3200 * n ^ 3 + 48640 * n ^ 2) * (Ms_for_n 3).getD 0 +
      967680 * n * (Ms_for_n 4).getD 0 := by
  rw [quartic_L4]
  rw [show COEFFS "M1_n3" = -4305 from rfl, show COEFFS "M1_n2" = 12915 from rfl,
    show COEFFS "M1_n1" = -8610 from rfl, show COEFFS "M2_n3" = -2296 from rfl,
    show COEFFS "M2_n2" = 18368 from rfl, show COEFFS "M3_n3" = -3200 from rfl,
    show COEFFS "M3_n2" = 48640 from rfl, show COEFFS "M4_n1" = 967680 from rfl]
  ring

/-- Witness for C3 at `n = 2` with a mapping whose key `4` is absent. -/
theorem C3_quartic_formula_witness :
    (0 : ℤ) ≤ 2 ∧ C2dict 4 = none ∧
    quartic_L4 2 C2dict =
      (-4305 * (2 : ℤ) ^ 3 + 12915 * (2 : ℤ) ^ 2 - 8610 * 2) * (C2dict 1).getD 0 +
      (-2296 * (2 : ℤ) ^ 3 + 18368 * (2 : ℤ) ^ 2) * (C2dict 2).getD 0 +
      (-3200 * (2 : ℤ) ^ 3 + 48640 * (2 : ℤ) ^ 2) * (C2dict 3).getD 0 +
      967680 * 2 * (C2dict 4).getD 0 :=
  ⟨by norm_num, rfl, C3_quartic_formula 2 C2dict (by norm_num)⟩

/-- C4: for every `N_max ≥ 2`, the drivers evaluate every `n` from `2` to
`N_max` inclusive (the iteration list contains exactly those `n`, and the
embedding is a total function — no abort, no exception), classify `n` as a
pass precisely when `(prime ∧ value = 0) ∨ (¬prime ∧ value ≠ 0)`, and their
failures lists contain exactly the non-passing `n` of `[2, N_max]`, in
increasing order of `n`. -/
theorem C4_driver_report (N : ℕ) (hN : 2 ≤ N) :
    (∀ n : ℕ, n ∈ List.Ico 2 (N + 1) ↔ 2 ≤ n ∧ n ≤ N) ∧
    verify_range N =
      ((List.Ico 2 (N + 1)).filter fun n => !quartic_ok n).map
        (fun n => (n, decide (Nat.Prime n), quartic_L4 (n : ℤ) (compute_M_up_to_4 n))) ∧
    binomial_failures N = ((List.Ico 2 (N + 1)).filter fun n => !cubic_ok n) ∧
    (∀ n : ℕ, quartic_ok n = true ↔
      (Nat.Prime n ∧ quartic_L4 (n : ℤ) (compute_M_up_to_4 n) = 0) ∨
      (¬ Nat.Prime n ∧ quartic_L4 (n : ℤ) (compute_M_up_to_4 n) ≠ 0)) ∧
    (∀ n : ℕ, cubic_ok n = true ↔
      (Nat.Prime n ∧ binomial_cubic_detector (n : ℤ) (compute_M_up_to_3 n) = 0) ∨
      (¬ Nat.Prime n ∧ binomial_cubic_detector (n : ℤ) (compute_M_up_to_3 n) ≠ 0)) ∧
    List.Pairwise (· < ·) ((verify_range N).map fun t => t.1) ∧
    List.Pairwise (· < ·) (binomial_failures N) := by
  refine ⟨?_, verify_range_eq N, binomial_failures_eq N, quartic_ok_iff, cubic_ok_iff, ?_, ?_⟩
  · intro n
    rw [List.Ico.mem]
    omega
  · rw [verify_range_firsts]
    exact (List.Ico.pairwise_lt 2 (N + 1)).filter _
  · rw [binomial_failures_eq]
    exact (List.Ico.pairwise_lt 2 (N + 1)).filter _

/-- Witness for C4 at `N_max = 2` (with the universally quantified
conjuncts instantiated at `n = 2`). -/
theorem C4_driver_report_witness :
    2 ≤ 2 ∧
    (2 ∈ List.Ico 2 (2 + 1) ↔ 2 ≤ 2 ∧ 2 ≤ 2) ∧
    verify_range 2 =
      ((List.Ico 2 (2 + 1)).filter fun n => !quartic_ok n).map
        (fun n => (n, decide (Nat.Prime n), quartic_L4 (n : ℤ) (compute_M_up_to_4 n))) ∧
    binomial_failures 2 = ((List.Ico 2 (2 + 1)).filter fun n => !cubic_ok n) ∧
    (quartic_ok 2 = true ↔
      (Nat.Prime 2 ∧ quartic_L4 ((2 : ℕ) : ℤ) (compute_M_up_to_4 2) = 0) ∨
      (¬ Nat.Prime 2 ∧ quartic_L4 ((2 : ℕ) : ℤ) (compute_M_up_to_4 2) ≠ 0)) ∧
    (cubic_ok 2 = true ↔
      (Nat.Prime 2 ∧ binomial_cubic_detector ((2 : ℕ) : ℤ) (compute_M_up_to_3 2) = 0) ∨
      (¬ Nat.Prime 2 ∧ binomial_cubic_detector ((2 : ℕ) : ℤ) (compute_M_up_to_3 2) ≠ 0)) ∧
    List.Pairwise (· < ·) ((verify_range 2).map fun t => t.1) ∧
    List.Pairwise (· < ·) (binomial_failures 2) := by
  have h := C4_driver_report 2 le_rfl
  exact ⟨le_rfl, h.1 2, h.2.1, h.2.2.1, h.2.2.2.1 2, h.2.2.2.2.1 2,
    h.2.2.2.2.2.1, h.2.2.2.2.2.2⟩

/-- C5 counterexample: at `n = 4` (within `[0, N_MAX]`), the engine's
statistics sum to `M_1(4) + M_2(4) + M_3(4) + M_4(4) = 7 + 3 + 0 + 0 = 10`,
while the total number of partitions of `4` is `p(4) = 5`, so the claimed
bound `Σ_k M_k(n) ≤ p(n)` fails. -/
theorem C5_counterexample :
    4 ≤ N_MAX ∧
    (∑ k ∈ Finset.Icc 1 4, (compute_M_up_to_4 4 k).getD 0) = 10 ∧
    (Fintype.card (Nat.Partition 4) : ℤ) = 5 ∧
    ¬ ((∑ k ∈ Finset.Icc 1 4, (compute_M_up_to_4 4 k).getD 0) ≤
        (Fintype.card (Nat.Partition 4) : ℤ)) := by
  have hrec : rec4 4 1 0 = rec4F 5 4 1 0 := (rec4F_eq 5 4 1 0 (by omega)).symm
  have hsum : (∑ k ∈ Finset.Icc 1 4, (compute_M_up_to_4 4 k).getD 0) = 10 := by
    simp only [compute_M_up_to_4, hrec]
    decide
  have hcard : Fintype.card (Nat.Partition 4) = 5 := by
    rw [card_partition_eq_partMS]
    decide
  refine ⟨by norm_num [N_MAX], hsum, by rw [hcard]; norm_num, ?_⟩
  rw [hsum, hcard]
  norm_num

/-- C5 (amended): for every `n ∈ [0, N_MAX]`, the sum over `k = 1..K` of the
engine's `M_k(n)` does not exceed the sum, over ALL partitions of `n`, of
the product of the multiplicities (rather than the number `p(n)` of
partitions, which the true values exceed already at `n = 4`). -/
theorem C5_amended_sum_bound (n : ℕ) (hn : n ≤ N_MAX) :
    (∑ k ∈ Finset.Icc 1 4, (compute_M_up_to_4 n k).getD 0) ≤
      ∑ p : Nat.Partition n, ((∏ i ∈ p.parts.toFinset, p.parts.count i : ℕ) : ℤ) ∧
    (∑ k ∈ Finset.Icc 1 3, (compute_M_up_to_3 n k).getD 0) ≤
      ∑ p : Nat.Partition n, ((∏ i ∈ p.parts.toFinset, p.parts.count i : ℕ) : ℤ) := by
  constructor
  · have h4 : ∀ k ∈ Finset.Icc 1 4, (compute_M_up_to_4 n k).getD 0 = ((Mref k n : ℕ) : ℤ) := by
      intro k hk
      rw [Finset.mem_Icc] at hk
      rw [compute_M4_eq_Mref n k hk.1 hk.2, Option.getD_some]
    rw [Finset.sum_congr rfl h4, Finset.sum_congr rfl fun k _ => Mref_cast k n,
      Finset.sum_comm]
    refine Finset.sum_le_sum fun p _ => ?_
    rw [Finset.sum_ite_eq]
    split_ifs
    · exact le_rfl
    · exact Int.natCast_nonneg _
  · have h3 : ∀ k ∈ Finset.Icc 1 3, (compute_M_up_to_3 n k).getD 0 = ((Mref k n : ℕ) : ℤ) := by
      intro k hk
      rw [Finset.mem_Icc] at hk
      rw [compute_M3_eq_Mref n k hk.1 hk.2, Option.getD_some]
    rw [Finset.sum_congr rfl h3, Finset.sum_congr rfl fun k _ => Mref_cast k n,
      Finset.sum_comm]
    refine Finset.sum_le_sum fun p _ => ?_
    rw [Finset.sum_ite_eq]
    split_ifs
    · exact le_rfl
    · exact Int.natCast_nonneg _

/-- Witness for the amended C5 at `n = 4`. -/
theorem C5_amended_sum_bound_witness :
    4 ≤ N_MAX ∧
    ((∑ k ∈ Finset.Icc 1 4, (compute_M_up_to_4 4 k).getD 0) ≤
      ∑ p : Nat.Partition 4, ((∏ i ∈ p.parts.toFinset, p.parts.count i : ℕ) : ℤ) ∧
    (∑ k ∈ Finset.Icc 1 3, (compute_M_up_to_3 4 k).getD 0) ≤
      ∑ p : Nat.Partition 4, ((∏ i ∈ p.parts.toFinset, p.parts.count i : ℕ) : ℤ)) :=
  ⟨by norm_num [N_MAX], C5_amended_sum_bound 4 (by norm_num [N_MAX])⟩

/-- The reference statistic vanishes above the maximal distinct-size count. -/
lemma Mref_eq_zero_of_big (n k : ℕ) (hbig : maxDistinct n < k) : Mref k n = 0 := by
  rw [Mref]
  refine Finset.sum_eq_zero fun p _ => ?_
  rw [if_neg]
  intro h
  have := card_le_maxDistinct n p
  omega

/-- C6: the engines give `M_k(0) = 0` for every `k ∈ [1, K]`, and for every
`n ∈ [0, N_MAX]`, `M_k(n) = 0` for every `k ∈ [1, K]` greater than the
maximal number of distinct part sizes possible in a partition of `n`. -/
theorem C6_vanishing (n k : ℕ) (hn : n ≤ N_MAX) (hk1 : 1 ≤ k) (hk4 : k ≤ 4)
    (hbig : maxDistinct n < k) :
    compute_M_up_to_4 n k = some 0 ∧
    (k ≤ 3 → compute_M_up_to_3 n k = some 0) ∧
    (∀ k' : ℕ, 1 ≤ k' → k' ≤ 4 → compute_M_up_to_4 0 k' = some 0) ∧
    (∀ k' : ℕ, 1 ≤ k' → k' ≤ 3 → compute_M_up_to_3 0 k' = some 0) := by
  have hzero4 : ∀ n' k' : ℕ, 1 ≤ k' → k' ≤ 4 → maxDistinct n' < k' →
      compute_M_up_to_4 n' k' = some 0 := by
    intro n' k' h1 h4 hb
    rw [compute_M4_eq_Mref n' k' h1 h4, Mref_eq_zero_of_big n' k' hb]
    norm_num
  have hzero3 : ∀ n' k' : ℕ, 1 ≤ k' → k' ≤ 3 → maxDistinct n' < k' →
      compute_M_up_to_3 n' k' = some 0 := by
    intro n' k' h1 h3 hb
    rw [compute_M3_eq_Mref n' k' h1 h3, Mref_eq_zero_of_big n' k' hb]
    norm_num
  refine ⟨hzero4 n k hk1 hk4 hbig, fun hk3 => hzero3 n k hk1 hk3 hbig, ?_, ?_⟩
  · intro k' h1 h4
    refine hzero4 0 k' h1 h4 ?_
    rw [maxDistinct_zero]
    omega
  · intro k' h1 h3
    refine hzero3 0 k' h1 h3 ?_
    rw [maxDistinct_zero]
    omega

/-- Witness for C6 at `n = 0`, `k = 1`. -/
theorem C6_vanishing_witness :
    0 ≤ N_MAX ∧ 1 ≤ 1 ∧ 1 ≤ 4 ∧ maxDistinct 0 < 1 ∧
    (compute_M_up_to_4 0 1 = some 0 ∧
      (1 ≤ 3 → compute_M_up_to_3 0 1 = some 0) ∧
      (∀ k' : ℕ, 1 ≤ k' → k' ≤ 4 → compute_M_up_to_4 0 k' = some 0) ∧
      (∀ k' : ℕ, 1 ≤ k' → k' ≤ 3 → compute_M_up_to_3 0 k' = some 0)) := by
  have hb : maxDistinct 0 < 1 := by
    rw [maxDistinct_zero]
    omega
  exact ⟨Nat.zero_le _, le_rfl, by norm_num, hb,
    C6_vanishing 0 1 (Nat.zero_le _) le_rfl (by norm_num) hb⟩

/-- C7: every component of every statistics vector returned by the engine
recursions is non-negative — for every state with `remaining ≥ 0` (all of
`ℕ`), `min_part ≥ 1` and `distinct_used ∈ [0, K]` — and hence
`M_k(n) ≥ 0` for all `n ∈ [0, N_MAX]` and `k ∈ [1, K]`. -/
theorem C7_stats_nonneg (r mp d : ℕ) (hmp : 1 ≤ mp) (hd : d ≤ 4) :
    (∀ k : Fin 5, 0 ≤ rec4 r mp d k) ∧
    (d ≤ 3 → ∀ k : Fin 4, 0 ≤ rec3 r mp d k) ∧
    (∀ n k : ℕ, n ≤ N_MAX → 1 ≤ k → k ≤ 4 → 0 ≤ (compute_M_up_to_4 n k).getD 0) ∧
    (∀ n k : ℕ, n ≤ N_MAX → 1 ≤ k → k ≤ 3 → 0 ≤ (compute_M_up_to_3 n k).getD 0) := by
  refine ⟨fun k => rec4_nonneg r mp d k, fun _ k => rec3_nonneg r mp d k, ?_, ?_⟩
  · intro n k _ h1 h4
    rw [compute_M4_eq_Mref n k h1 h4, Option.getD_some]
    exact Int.natCast_nonneg _
  · intro n k _ h1 h3
    rw [compute_M3_eq_Mref n k h1 h3, Option.getD_some]
    exact Int.natCast_nonneg _

/-- Witness for C7 at the state `(4, 1, 0)`. -/
theorem C7_stats_nonneg_witness :
    1 ≤ 1 ∧ 0 ≤ 4 ∧
    ((∀ k : Fin 5, 0 ≤ rec4 4 1 0 k) ∧
      (0 ≤ 3 → ∀ k : Fin 4, 0 ≤ rec3 4 1 0 k) ∧
      (∀ n k : ℕ, n ≤ N_MAX → 1 ≤ k → k ≤ 4 → 0 ≤ (compute_M_up_to_4 n k).getD 0) ∧
      (∀ n k : ℕ, n ≤ N_MAX → 1 ≤ k → k ≤ 3 → 0 ≤ (compute_M_up_to_3 n k).getD 0)) :=
  ⟨le_rfl, by norm_num, C7_stats_nonneg 4 1 0 le_rfl (by norm_num)⟩

/-- C8: the recursions terminate for every input with `remaining ≥ 0` and
`min_part ≥ 1`: every recursive call strictly decreases `remaining`, so the
fuel-indexed unrollings `rec4F` / `rec3F` reach the fixed point as soon as
the fuel exceeds `remaining`, and the limits `rec4` / `rec3` are total
functions of the state. -/
theorem C8_recursion_terminates (r mp d fuel : ℕ) (hmp : 1 ≤ mp) (hfuel : r < fuel) :
    rec4F fuel r mp d = rec4 r mp d ∧ rec3F fuel r mp d = rec3 r mp d :=
  ⟨rec4F_eq fuel r mp d hfuel, rec3F_eq fuel r mp d hfuel⟩

/-- Witness for C8 at the state `(4, 1, 0)` with fuel `5`. -/
theorem C8_recursion_terminates_witness :
    1 ≤ 1 ∧ 4 < 5 ∧ (rec4F 5 4 1 0 = rec4 4 1 0 ∧ rec3F 5 4 1 0 = rec3 4 1 0) :=
  ⟨le_rfl, by norm_num, C8_recursion_terminates 4 1 0 5 le_rfl (by norm_num)⟩

/-- C9: for every `n ≥ 0` and `k ∈ {1, 2, 3}`, the cubic engine and the
quartic engine produce the same table entry `M_k(n)`: the extra
distinct-part level of the quartic engine never changes `M_1 .. M_3`. -/
theorem C9_engines_agree (n k : ℕ) (hk1 : 1 ≤ k) (hk3 : k ≤ 3) :
    compute_M_up_to_3 n k = compute_M_up_to_4 n k := by
  rw [compute_M3_eq_Mref n k hk1 hk3, compute_M4_eq_Mref n k hk1 (by omega)]

/-- Witness for C9 at `n = 5`, `k = 2`. -/
theorem C9_engines_agree_witness :
    1 ≤ 2 ∧ 2 ≤ 3 ∧ compute_M_up_to_3 5 2 = compute_M_up_to_4 5 2 :=
  ⟨by norm_num, by norm_num, C9_engines_agree 5 2 (by norm_num) (by norm_num)⟩

/-- C10: for every `n < 3` and every statistics mapping whatsoever,
`binomial_cubic_detector` returns `0`; in particular `n = 2` is classified
as a pass ("prime") by the cubic pipeline, independently of the computed
partition statistics. -/
theorem C10_below_three_returns_zero (n : ℤ) (Ms_for_n : ℕ → Option ℤ) (hn : n < 3) :
    binomial_cubic_detector n Ms_for_n = 0 ∧ cubic_ok 2 = true := by
  constructor
  · rw [binomial_cubic_detector, if_pos hn]
  · rw [cubic_ok_iff]
    left
    refine ⟨Nat.prime_two, ?_⟩
    rw [binomial_cubic_detector, if_pos (by norm_num)]

/-- Witness for C10 at `n = 2` with nonzero supplied statistics. -/
theorem C10_below_three_returns_zero_witness :
    (2 : ℤ) < 3 ∧ (binomial_cubic_detector 2 C2dict = 0 ∧ cubic_ok 2 = true) :=
  ⟨by norm_num, C10_below_three_returns_zero 2 C2dict (by norm_num)⟩
